import Mathlib

/-!
Shallow embedding of the Tui-Beat audio engine core
(src/scale.rs, src/sequencer.rs, src/effects.rs, src/synth.rs).

Modelling conventions:
* Rust `f32` values that take part in exact small-integer arithmetic
  (sequencer clock maths) are modelled as `ℚ`; the concrete inputs the
  claims are about (`sample_rate = 44100`, `bpm = 120`) make every
  intermediate of `samples_per_step` exactly representable in `f32`, so
  the rational model agrees with the `f32` code there.
* Rust `f32` signal-path values (oscillator, envelope, mixing) are
  modelled as `ℝ`.
* Rust `i32` / `u8` arithmetic in the scale quantizer is modelled as `ℤ`
  with the exact constants of the source (`i32::MAX = 2147483647`).
* `HashMap<u8, Voice>` is modelled as an association list with
  replace-on-insert semantics; the one-entry-per-key invariant is the
  `voicesKeysNodup` predicate.
* The drum machine (`src/drums.rs`) is not part of the sources; its
  per-sample output is passed to `Synth.generate_sample` as an explicit
  real parameter (see the doc comment there).
-/

set_option autoImplicit false

namespace TuiBeat

-- ── Scale definitions (src/scale.rs) ──────────────────────────────────────────

/-- The scale enumeration of `src/scale.rs`. -/
inductive Scale where
  | Off
  | Major
  | Minor
  | PentaMajor
  | PentaMinor
  | Blues
  | Dorian
  | Mixolydian
deriving DecidableEq, Repr

/-- Semitone intervals from the root note (`Scale::intervals`). -/
def Scale.intervals : Scale → List ℤ
  | .Off        => [0,1,2,3,4,5,6,7,8,9,10,11]
  | .Major      => [0,2,4,5,7,9,11]
  | .Minor      => [0,2,3,5,7,8,10]
  | .PentaMajor => [0,2,4,7,9]
  | .PentaMinor => [0,3,5,7,10]
  | .Blues      => [0,3,5,6,7,10]
  | .Dorian     => [0,2,3,5,7,9,10]
  | .Mixolydian => [0,2,4,5,7,9,10]

/-- The quantizer state of `src/scale.rs` (`root` is a pitch class, `0 ≤ root ≤ 11`). -/
structure ScaleQuantizer where
  scale : Scale
  root  : ℕ
deriving DecidableEq, Repr

/-- The fold step of `ScaleQuantizer::quantize`: keep the candidate offset of
strictly smaller absolute value, scanning candidates in order. -/
def quantStep (acc : ℤ × ℤ) (c : ℤ) : ℤ × ℤ :=
  if |c| < acc.2 then (c, |c|) else acc

/-- The ordered candidate-offset list of `ScaleQuantizer::quantize`: for each
interval, the three candidates in source order. -/
def quantCandidates (rel : ℤ) (ivs : List ℤ) : List ℤ :=
  ivs.flatMap (fun iv => [iv - rel, iv - 12 - rel, iv + 12 - rel])

/-- Shallow embedding of `ScaleQuantizer::quantize` (src/scale.rs lines 92–116).
`i32::MAX` is the source's initial best distance. The final
`(note + best_offset).clamp(0, 127) as u8` is `Int.toNat (max 0 (min 127 _))`. -/
def ScaleQuantizer.quantize (q : ScaleQuantizer) (note : ℕ) : ℕ :=
  if q.scale = Scale.Off then note
  else
    let root : ℤ := q.root
    let n : ℤ := note
    let rel : ℤ := (n - root) % 12
    let best := (quantCandidates rel q.scale.intervals).foldl quantStep (0, 2147483647)
    (max 0 (min 127 (n + best.1))).toNat

/-- The winning offset of the quantizer fold for scale `sc` at relative pitch
`rel` (the `.0` of the source's `(best_offset, best_dist)` accumulator). -/
def bestOffset (sc : Scale) (rel : ℤ) : ℤ :=
  ((quantCandidates rel sc.intervals).foldl quantStep (0, 2147483647)).1

/-- The spec's §4.5 wording of the winning offset, stated independently of the
source's sentinel accumulator: scan the candidate offsets in order and keep the
one of smallest absolute value, a strict comparison so that the candidate
encountered first wins ties.  Used to compare against `bestOffset` (claim C4). -/
def specWinningOffset (cands : List ℤ) : ℤ :=
  match cands with
  | [] => 0
  | c :: cs => cs.foldl (fun best c2 => if |c2| < |best| then c2 else best) c

-- ── Sequencer (src/sequencer.rs) ──────────────────────────────────────────────

/-- An event fired when the sequencer crosses a step boundary (`StepEvent`). -/
structure StepEvent where
  note_off : Option ℕ
  note_on  : Option ℕ
deriving DecidableEq, Repr

/-- The melodic step sequencer state (`Sequencer`). `sample_rate` is modelled
as `ℚ` (see the file header). -/
structure Sequencer where
  steps          : List (Option ℕ)
  num_steps      : ℕ
  current_step   : ℕ
  playing        : Bool
  sample_rate    : ℚ
  sample_counter : ℕ
deriving DecidableEq, Repr

/-- Embedding of `Sequencer::new`. -/
def Sequencer.new (sample_rate : ℚ) : Sequencer :=
  { steps := List.replicate 16 none
    num_steps := 16
    current_step := 0
    playing := false
    sample_rate := sample_rate
    sample_counter := 0 }

/-- Rust `f32::round`: round to nearest, ties away from zero. -/
def rustRound (q : ℚ) : ℤ :=
  if 0 ≤ q then ⌊q + 1/2⌋ else -⌊-q + 1/2⌋

/-- Embedding of `Sequencer::samples_per_step`: `((sample_rate * 60) / (bpm * 4)).round() as u64`.
The `as u64` cast saturates negatives at zero, modelled by `Int.toNat`. -/
def Sequencer.samples_per_step (s : Sequencer) (bpm : ℚ) : ℕ :=
  (rustRound ((s.sample_rate * 60) / (bpm * 4))).toNat

/-- Shallow embedding of `Sequencer::tick` (src/sequencer.rs lines 38–63).
The source indexes `self.steps[prev]` / `self.steps[current_step]` under the
maintained invariant `steps.len() = num_steps`; the embedding uses `getD`,
which agrees with the source whenever the index is in bounds. -/
def Sequencer.tick (s : Sequencer) (bpm : ℚ) : Option StepEvent × Sequencer :=
  if s.playing = false then (none, s)
  else
    let sps := max (s.samples_per_step bpm) 1
    let old := s.sample_counter
    let c1 := s.sample_counter + 1
    let event : Option StepEvent :=
      if old = 0 then
        let prev := if s.current_step = 0 then s.num_steps - 1 else s.current_step - 1
        some { note_off := s.steps.getD prev none
               note_on  := s.steps.getD s.current_step none }
      else none
    if sps ≤ c1 then
      (event, { s with sample_counter := 0,
                       current_step := (s.current_step + 1) % s.num_steps })
    else
      (event, { s with sample_counter := c1 })

/-- Embedding of `Sequencer::toggle_play`. -/
def Sequencer.toggle_play (s : Sequencer) : Option ℕ × Sequencer :=
  let s1 := { s with playing := !s.playing }
  if s1.playing then (none, { s1 with sample_counter := 0 })
  else ((s1.steps[s1.current_step]?).join, s1)

/-- The `num_steps` cycle `8 → 16 → 24 → 32 → 8` of `Sequencer::cycle_num_steps`. -/
def nextNumSteps : ℕ → ℕ
  | 8 => 16
  | 16 => 24
  | 24 => 32
  | _ => 8

/-- Rust `Vec::resize(n, a)`: truncate to `n` or extend with copies of `a`. -/
def listResize {α : Type} (l : List α) (n : ℕ) (a : α) : List α :=
  if n ≤ l.length then l.take n else l ++ List.replicate (n - l.length) a

/-- Embedding of `Sequencer::cycle_num_steps`. -/
def Sequencer.cycle_num_steps (s : Sequencer) : Sequencer :=
  let next := nextNumSteps s.num_steps
  let s1 := { s with num_steps := next, steps := listResize s.steps next none }
  if next ≤ s1.current_step then { s1 with current_step := 0 } else s1

/-- Embedding of `Sequencer::set_step`. -/
def Sequencer.set_step (s : Sequencer) (step : ℕ) (note : ℕ) : Sequencer :=
  if step < s.steps.length then { s with steps := s.steps.set step (some note) } else s

/-- Embedding of `Sequencer::clear_step`. -/
def Sequencer.clear_step (s : Sequencer) (step : ℕ) : Sequencer :=
  if step < s.steps.length then { s with steps := s.steps.set step none } else s

-- ── Effect chain (src/effects.rs) ─────────────────────────────────────────────

/-- A mono audio effect (`dyn AudioEffect`), modelled as a deterministic
stateful transducer represented by its response to input histories: `out h`
is the output produced on consuming the inputs `h` (most recent first), and
the internal state reached so far is captured by the consumed history `hist`.
Every implementation of `fn process(&mut self, sample: f32) -> f32` — any
state type `σ`, start state and step function — determines such a response
function (run the step function over the reversed history), and every
response function arises from some implementation, so this type is an
adequate and inhabited model of the trait object. -/
structure Effect where
  out  : List ℝ → ℝ
  hist : List ℝ

/-- One call of `AudioEffect::process`: emit the response to the extended
history and record the consumed input in the internal state. -/
def Effect.process (e : Effect) (s : ℝ) : ℝ × Effect :=
  (e.out (s :: e.hist), { e with hist := s :: e.hist })

/-- The fold of `EffectChain::process` over the effect list, in list order,
threading the sample left to right and collecting the updated effects. -/
def processList : List Effect → ℝ → ℝ × List Effect
  | [], s => (s, [])
  | e :: t, s =>
      let p := e.process s
      let q := processList t p.1
      (q.1, p.2 :: q.2)

/-- Embedding of `EffectChain`. -/
structure EffectChain where
  effects : List Effect

/-- Embedding of `EffectChain::new`. -/
def EffectChain.new : EffectChain := { effects := [] }

/-- Shallow embedding of `EffectChain::process` (src/effects.rs lines 28–34):
an empty chain returns the sample unchanged, otherwise the sample is folded
through every effect in list order. -/
def EffectChain.process (c : EffectChain) (s : ℝ) : ℝ × EffectChain :=
  if c.effects.isEmpty then (s, c)
  else
    let p := processList c.effects s
    (p.1, { effects := p.2 })

-- ── Melodic voice (src/synth.rs) ──────────────────────────────────────────────

/-- Embedding of `WaveType`. -/
inductive WaveType where
  | Sine
  | Square
  | Sawtooth
  | Triangle
deriving DecidableEq, Repr

/-- Embedding of `EnvelopeStage`. -/
inductive EnvelopeStage where
  | Attack
  | Decay
  | Sustain
  | Release
  | Off
deriving DecidableEq, Repr

/-- Embedding of `Voice` (melodic voice: oscillator plus ADSR envelope). -/
structure Voice where
  frequency     : ℝ
  phase         : ℝ
  stage         : EnvelopeStage
  level         : ℝ
  release_level : ℝ

/-- Embedding of `note_to_freq`: equal-temperament pitch-to-frequency map. -/
noncomputable def note_to_freq (note : ℕ) : ℝ :=
  440 * (2 : ℝ) ^ (((note : ℝ) - 69) / 12)

/-- Embedding of `Voice::new`. -/
noncomputable def Voice.new (note : ℕ) : Voice :=
  { frequency := note_to_freq note
    phase := 0
    stage := EnvelopeStage.Attack
    level := 0
    release_level := 0 }

/-- Embedding of `Voice::release`. -/
def Voice.release (v : Voice) : Voice :=
  if v.stage ≠ EnvelopeStage.Off
  then { v with release_level := v.level, stage := EnvelopeStage.Release }
  else v

/-- Embedding of `Voice::is_finished`. -/
def Voice.is_finished (v : Voice) : Bool :=
  match v.stage with
  | EnvelopeStage.Off => true
  | _ => false

/-- The pure waveform functions of `Voice::next_sample`. -/
noncomputable def waveSample (wave : WaveType) (phase : ℝ) : ℝ :=
  match wave with
  | WaveType.Sine => Real.sin (phase * 2 * Real.pi)
  | WaveType.Square => if 0 ≤ Real.sin (phase * 2 * Real.pi) then 1 else -1
  | WaveType.Sawtooth => 2 * phase - 1
  | WaveType.Triangle => if phase < 1/2 then 4 * phase - 1 else 3 - 4 * phase

/-- Shallow embedding of `Voice::next_sample` (src/synth.rs lines 59–91):
the envelope is advanced first (possibly changing stage), then the waveform is
read at the current phase, the phase is advanced and wrapped, and the output is
`waveform * new_level`.  A voice in `Off` returns `0` and is left untouched. -/
noncomputable def Voice.next_sample (v : Voice) (sr : ℝ) (wave : WaveType)
    (attack decay sustain release : ℝ) : ℝ × Voice :=
  if v.stage = EnvelopeStage.Off then (0, v)
  else
    let dt := 1 / sr
    let ls : ℝ × EnvelopeStage :=
      match v.stage with
      | EnvelopeStage.Attack =>
          let l := v.level + dt / attack
          if 1 ≤ l then (1, EnvelopeStage.Decay) else (l, EnvelopeStage.Attack)
      | EnvelopeStage.Decay =>
          let l := v.level - dt * (1 - sustain) / decay
          if l ≤ sustain then (sustain, EnvelopeStage.Sustain) else (l, EnvelopeStage.Decay)
      | EnvelopeStage.Sustain => (sustain, EnvelopeStage.Sustain)
      | EnvelopeStage.Release =>
          let l := v.level - dt * v.release_level / release
          if l ≤ 0 then (0, EnvelopeStage.Off) else (l, EnvelopeStage.Release)
      | EnvelopeStage.Off => (0, EnvelopeStage.Off)
    let sample := waveSample wave v.phase
    let p1 := v.phase + v.frequency / sr
    let phase1 := if 1 ≤ p1 then p1 - 1 else p1
    (sample * ls.1, { v with stage := ls.2, level := ls.1, phase := phase1 })

-- ── Synth (src/synth.rs) ──────────────────────────────────────────────────────

/-- Embedding of `HashMap<u8, Voice>` lookup, on the association-list model. -/
def lookupVoice (p : ℕ) : List (ℕ × Voice) → Option Voice
  | [] => none
  | e :: t => if e.1 = p then some e.2 else lookupVoice p t

/-- Embedding of `HashMap::insert`: replace the entry for the key if present, else add it. -/
def insertVoice (p : ℕ) (v : Voice) : List (ℕ × Voice) → List (ℕ × Voice)
  | [] => [(p, v)]
  | e :: t => if e.1 = p then (p, v) :: t else e :: insertVoice p v t

/-- Embedding of `voices.get_mut(&p)` followed by `Voice::release`: release the entry whose
key is `p`, leave every other entry unchanged. -/
def releaseAt (p : ℕ) (l : List (ℕ × Voice)) : List (ℕ × Voice) :=
  l.map (fun e => if e.1 = p then (e.1, e.2.release) else e)

/-- The one-entry-per-pitch invariant of the `HashMap` model. -/
def voicesKeysNodup (l : List (ℕ × Voice)) : Prop :=
  (l.map Prod.fst).Nodup

/-- Embedding of `Synth` state.  `bpm` is modelled as `ℚ` (it feeds the sequencer clock);
the signal-path parameters are `ℝ`.  There is no `drum_machine` field: the drum
machine's sources are absent and its per-sample output enters
`Synth.generate_sample` through `drumOutputModel` (see there). -/
structure Synth where
  sample_rate : ℝ
  bpm         : ℚ
  wave_type   : WaveType
  voices      : List (ℕ × Voice)
  attack      : ℝ
  decay       : ℝ
  sustain     : ℝ
  release     : ℝ
  volume      : ℝ
  sequencer   : Sequencer
  fx          : EffectChain

/-- Embedding of `Synth::new` (src/synth.rs lines 113–125); the shared `f32` sample rate is
taken as `ℚ` and cast to `ℝ` for the signal path, per the file header. -/
noncomputable def Synth.new (sample_rate : ℚ) : Synth :=
  { sample_rate := (sample_rate : ℝ)
    bpm := 120
    wave_type := WaveType.Sine
    voices := []
    attack := 1/100
    decay := 1/10
    sustain := 7/10
    release := 3/10
    volume := 1/2
    sequencer := Sequencer.new sample_rate
    fx := EffectChain.new }

/-- Embedding of `Synth::note_on`: insert (replacing) a fresh voice for the pitch. -/
noncomputable def Synth.note_on (s : Synth) (p : ℕ) : Synth :=
  { s with voices := insertVoice p (Voice.new p) s.voices }

/-- Embedding of `Synth::note_off`: release the voice for the pitch if present. -/
def Synth.note_off (s : Synth) (p : ℕ) : Synth :=
  { s with voices := releaseAt p s.voices }

/-- Applying a sequencer `StepEvent` inside `Synth::generate_sample`: the
note-off release first, then the note-on insertion. -/
noncomputable def applyEvent (ev : Option StepEvent) (l : List (ℕ × Voice)) :
    List (ℕ × Voice) :=
  match ev with
  | none => l
  | some e =>
      let l1 := match e.note_off with
        | none => l
        | some n => releaseAt n l
      match e.note_on with
      | none => l1
      | some n => insertVoice n (Voice.new n) l1

/-- Modelled from the spec: `DrumMachine::generate_sample` — `src/drums.rs` is
not among the repository sources. §4.4 of the spec specifies the drum machine
only as a black box producing one mixed output sample per call, so that output
is an explicit real argument (`drum_raw`), universally quantified in the
theorems; this definition marks where it enters the mix. -/
def drumOutputModel (drum_raw : ℝ) : ℝ := drum_raw

/-- The voice map after the sequencer event of this call has been applied. -/
noncomputable def Synth.voicesAfterEvent (s : Synth) : List (ℕ × Voice) :=
  applyEvent (s.sequencer.tick s.bpm).1 s.voices

/-- Every voice advanced by one sample, keeping each voice's output. -/
noncomputable def Synth.advanced (s : Synth) : List (ℕ × (ℝ × Voice)) :=
  s.voicesAfterEvent.map (fun e =>
    (e.1, e.2.next_sample s.sample_rate s.wave_type s.attack s.decay s.sustain s.release))

/-- The summed melodic mix (`mel_mix`). -/
noncomputable def Synth.melMix (s : Synth) : ℝ :=
  (s.advanced.map (fun e => e.2.1)).sum

/-- The voice map after dropping finished voices (`voices.retain`). -/
noncomputable def Synth.retainedVoices (s : Synth) : List (ℕ × Voice) :=
  (s.advanced.map (fun e => (e.1, e.2.2))).filter (fun e => !e.2.is_finished)

/-- The scaled melodic bus (`mel_scaled`):
`mel_mix * volume / (voices.len().max(1) as f32).sqrt()`. -/
noncomputable def Synth.melScaled (s : Synth) : ℝ :=
  s.melMix * s.volume / Real.sqrt ((s.retainedVoices.length.max 1 : ℕ) : ℝ)

/-- The melodic bus after the insert effect chain (`mel_out`). -/
noncomputable def Synth.melOut (s : Synth) : ℝ :=
  (s.fx.process s.melScaled).1

/-- Shallow embedding of `Synth::generate_sample` (src/synth.rs lines 135–166):
tick the sequencer and apply its event, advance and sum the voices, retain the
unfinished ones, scale and run the melodic bus through the effect chain, add
the drum bus scaled by master volume, and soft-clip the mix with `tanh`. -/
noncomputable def Synth.generate_sample (s : Synth) (drum_raw : ℝ) : ℝ × Synth :=
  let drum_out := drumOutputModel drum_raw * s.volume
  (Real.tanh (s.melOut + drum_out),
   { s with voices := s.retainedVoices
            sequencer := (s.sequencer.tick s.bpm).2
            fx := (s.fx.process s.melScaled).2 })

/-- Embedding of `active_notes` of the synth: the pitches of the active voice map. -/
def Synth.active_notes (s : Synth) : List ℕ :=
  s.voices.map Prod.fst

/-- Repeated calls of `generate_sample`; `drs n` is the drum-machine output of
the `n`-th call (see `drumOutputModel`). -/
noncomputable def Synth.iterate (s : Synth) (drs : ℕ → ℝ) : ℕ → Synth
  | 0 => s
  | n + 1 => ((s.iterate drs n).generate_sample (drs n)).2

/-- A concrete one-voice synth state exercising the release drain: pitch 60
held in `Release`, level and captured release level both 1. -/
noncomputable def releaseState : Synth :=
  { Synth.new 44100 with
      voices := [(60, { frequency := 0, phase := 0, stage := EnvelopeStage.Release,
                        level := 1, release_level := 1 })] }

/-- Repeated calls of `Sequencer::tick` at a fixed bpm: state after `n` ticks. -/
def Sequencer.tickN (s : Sequencer) (bpm : ℚ) : ℕ → Sequencer
  | 0 => s
  | n + 1 => ((s.tickN bpm n).tick bpm).2

-- ── Theorems ──────────────────────────────────────────────────────────────────

/-- C9: `EffectChain::process` folds the input through each effect's `process`
in list order, and for a chain containing zero effects it is the identity on
the sample with the chain state unchanged.  The last conjunct runs a concrete
two-effect chain (gain by 2, then add 1) on the sample 3: the sample is
threaded left to right giving 2·3 + 1 = 7 and each effect's state advances,
so the fold conjuncts are not vacuous. -/
theorem claim_C9_effect_chain_fold :
    (∀ s : ℝ, (EffectChain.mk []).process s = (s, EffectChain.mk []))
    ∧ (∀ s : ℝ, processList [] s = (s, []))
    ∧ (∀ (e : Effect) (t : List Effect) (s : ℝ),
        processList (e :: t) s
          = ((processList t (e.process s).1).1,
             (e.process s).2 :: (processList t (e.process s).1).2))
    ∧ (∀ (e : Effect) (t : List Effect) (s : ℝ),
        (EffectChain.mk (e :: t)).process s
          = ((processList (e :: t) s).1, EffectChain.mk (processList (e :: t) s).2))
    ∧ (EffectChain.mk
        [{ out := fun h => 2 * h.headD 0, hist := [] },
         { out := fun h => h.headD 0 + 1, hist := [] }]).process 3
      = (7, EffectChain.mk
          [{ out := fun h => 2 * h.headD 0, hist := [3] },
           { out := fun h => h.headD 0 + 1, hist := [2 * 3] }]) := by
  refine ⟨fun s => rfl, fun s => rfl, fun e t s => rfl, fun e t s => rfl, ?_⟩
  show (2 * (3:ℝ) + 1,
      EffectChain.mk
        [{ out := fun h => 2 * h.headD 0, hist := [3] },
         { out := fun h => h.headD 0 + 1, hist := [2 * 3] }]) = _
  norm_num

/-- C8: for every step index at or beyond the pattern length, `set_step` and
`clear_step` leave the sequencer state completely unchanged. -/
theorem claim_C8_out_of_range_noop (s : Sequencer) (step : ℕ) (note : ℕ)
    (h : s.steps.length ≤ step) :
    s.set_step step note = s ∧ s.clear_step step = s := by
  constructor
  · rw [Sequencer.set_step, if_neg (by omega)]
  · rw [Sequencer.clear_step, if_neg (by omega)]

/-- C8 witness: a concrete out-of-range mutation is a no-op. -/
theorem claim_C8_witness :
    (Sequencer.new 44100).set_step 16 60 = Sequencer.new 44100
    ∧ (Sequencer.new 44100).clear_step 16 = Sequencer.new 44100 :=
  claim_C8_out_of_range_noop (Sequencer.new 44100) 16 60 (by simp [Sequencer.new])

/-- C6: toggling play from Stopped resets the sub-step counter and returns no
note to release; toggling from Playing returns the (optional) pitch stored at
`current_step` and changes only the `playing` flag, leaving `current_step` and
the counter untouched. -/
theorem claim_C6_toggle_play (s : Sequencer) :
    (s.playing = false →
       s.toggle_play = (none, { s with playing := true, sample_counter := 0 }))
    ∧ (s.playing = true →
       s.toggle_play = ((s.steps[s.current_step]?).join, { s with playing := false })) := by
  constructor
  · intro h
    simp [Sequencer.toggle_play, h]
  · intro h
    simp [Sequencer.toggle_play, h]

/-- C6 witness: both toggle directions on concrete states. -/
theorem claim_C6_witness :
    (Sequencer.new 44100).toggle_play
        = (none, { Sequencer.new 44100 with playing := true, sample_counter := 0 })
    ∧ ({ Sequencer.new 44100 with playing := true } : Sequencer).toggle_play
        = ((({ Sequencer.new 44100 with playing := true } : Sequencer).steps[
              ({ Sequencer.new 44100 with playing := true } : Sequencer).current_step]?).join,
           { ({ Sequencer.new 44100 with playing := true } : Sequencer) with playing := false }) :=
  ⟨(claim_C6_toggle_play (Sequencer.new 44100)).1 rfl,
   (claim_C6_toggle_play { Sequencer.new 44100 with playing := true }).2 rfl⟩

/-- Index lookup into a resized list: indices shared with the original keep
their content, fresh indices read the fill element. -/
theorem listResize_getElem (l : List (Option ℕ)) (n : ℕ) (a : Option ℕ) :
    (listResize l n a).length = n
    ∧ (∀ i, i < l.length → i < n → (listResize l n a)[i]? = l[i]?)
    ∧ (∀ i, l.length ≤ i → i < n → (listResize l n a)[i]? = some a) := by
  unfold listResize
  by_cases h : n ≤ l.length
  · rw [if_pos h]
    refine ⟨by simp [Nat.min_eq_left h], ?_, ?_⟩
    · intro i _ hin
      rw [List.getElem?_take, if_pos hin]
    · intro i hli hin
      omega
  · rw [if_neg h]
    refine ⟨by simp; omega, ?_, ?_⟩
    · intro i hil _
      rw [List.getElem?_append, if_pos hil]
    · intro i hli hin
      rw [List.getElem?_append_right hli]
      rw [List.getElem?_replicate, if_pos (by omega)]

/-- C7: cycling `num_steps` resizes the pattern preserving shared indices and
filling new slots empty, resets `current_step` to `0` exactly when it is at or
beyond the new length, and leaves the playing flag and sample counter alone. -/
theorem claim_C7_cycle_num_steps (s : Sequencer) :
    (s.cycle_num_steps).num_steps = nextNumSteps s.num_steps
    ∧ (s.cycle_num_steps).steps.length = nextNumSteps s.num_steps
    ∧ (∀ i, i < s.steps.length → i < nextNumSteps s.num_steps →
        (s.cycle_num_steps).steps[i]? = s.steps[i]?)
    ∧ (∀ i, s.steps.length ≤ i → i < nextNumSteps s.num_steps →
        (s.cycle_num_steps).steps[i]? = some none)
    ∧ (s.cycle_num_steps).current_step
        = (if nextNumSteps s.num_steps ≤ s.current_step then 0 else s.current_step)
    ∧ (s.cycle_num_steps).playing = s.playing
    ∧ (s.cycle_num_steps).sample_counter = s.sample_counter := by
  have hr := listResize_getElem s.steps (nextNumSteps s.num_steps) none
  unfold Sequencer.cycle_num_steps
  by_cases h : nextNumSteps s.num_steps ≤ s.current_step
  · rw [if_pos h]
    exact ⟨rfl, hr.1, hr.2.1, hr.2.2, by rw [if_pos h], rfl, rfl⟩
  · rw [if_neg h]
    exact ⟨rfl, hr.1, hr.2.1, hr.2.2, by rw [if_neg h], rfl, rfl⟩

/-- C7 witness: resizing the fresh 16-step sequencer to 24 keeps index 3,
fills index 16 with an empty slot, and keeps `current_step`. -/
theorem claim_C7_witness :
    ((Sequencer.new 44100).cycle_num_steps).steps[3]? = (Sequencer.new 44100).steps[3]?
    ∧ ((Sequencer.new 44100).cycle_num_steps).steps[16]? = some none
    ∧ ((Sequencer.new 44100).cycle_num_steps).num_steps = 24 :=
  ⟨(claim_C7_cycle_num_steps (Sequencer.new 44100)).2.2.1 3 (by simp [Sequencer.new])
      (by simp [Sequencer.new, nextNumSteps]),
   (claim_C7_cycle_num_steps (Sequencer.new 44100)).2.2.2.1 16 (by simp [Sequencer.new])
      (by simp [Sequencer.new, nextNumSteps]),
   (claim_C7_cycle_num_steps (Sequencer.new 44100)).1⟩

/-- With `sample_rate = 44100` and `bpm = 120`, the sequencer's step interval
is `round(44100·60/480) = round(5512.5) = 5513` samples (Rust `f32::round`
rounds ties away from zero, and every intermediate is exact in `f32`). -/
theorem samples_per_step_44100_120 (s : Sequencer) (h : s.sample_rate = 44100) :
    s.samples_per_step 120 = 5513 := by
  have hr : rustRound ((44100 * 60 : ℚ) / (120 * 4)) = 5513 := by
    norm_num [rustRound]
  rw [Sequencer.samples_per_step, h, hr]
  rfl

/-- A stopped sequencer ignores `tick`: no event, state unchanged. -/
theorem tick_stopped (s : Sequencer) (bpm : ℚ) (h : s.playing = false) :
    s.tick bpm = (none, s) := by
  rw [Sequencer.tick, if_pos h]

/-- One playing tick at 44100 Hz / 120 bpm: the counter advances modulo 5513,
the clock fields survive, and an event fires exactly when the counter was 0. -/
theorem tick_playing_44100_120 (s : Sequencer) (hp : s.playing = true)
    (hsr : s.sample_rate = 44100) (hc : s.sample_counter < 5513) :
    ((s.tick 120).2.sample_counter = (s.sample_counter + 1) % 5513)
    ∧ (s.tick 120).2.playing = true
    ∧ (s.tick 120).2.sample_rate = 44100
    ∧ ((s.tick 120).1.isSome = true ↔ s.sample_counter = 0) := by
  have hsps : max (s.samples_per_step 120) 1 = 5513 := by
    rw [samples_per_step_44100_120 s hsr]
    rfl
  rw [Sequencer.tick, if_neg (by simp [hp])]
  simp only [hsps]
  by_cases hend : 5513 ≤ s.sample_counter + 1
  · rw [if_pos hend]
    refine ⟨by simp; omega, hp, hsr, ?_⟩
    by_cases h0 : s.sample_counter = 0
    · simp [h0]
    · simp [h0]
  · rw [if_neg hend]
    refine ⟨by simp; omega, hp, hsr, ?_⟩
    by_cases h0 : s.sample_counter = 0
    · simp [h0]
    · simp [h0]

/-- Invariant of repeated playing ticks at 44100 Hz / 120 bpm from a
step-aligned start: after `n` ticks the counter is `n % 5513` and the clock
fields are intact. -/
theorem tickN_invariant_44100_120 (s : Sequencer) (hp : s.playing = true)
    (hsr : s.sample_rate = 44100) (hc : s.sample_counter = 0) :
    ∀ n, (s.tickN 120 n).sample_counter = n % 5513
      ∧ (s.tickN 120 n).playing = true
      ∧ (s.tickN 120 n).sample_rate = 44100 := by
  intro n
  induction n with
  | zero => exact ⟨by simp [Sequencer.tickN, hc], by simp [Sequencer.tickN, hp],
      by simp [Sequencer.tickN, hsr]⟩
  | succ k ih =>
    have hlt : (s.tickN 120 k).sample_counter < 5513 := by
      rw [ih.1]; exact Nat.mod_lt _ (by norm_num)
    have ht := tick_playing_44100_120 (s.tickN 120 k) ih.2.1 ih.2.2 hlt
    refine ⟨?_, ht.2.1, ht.2.2.1⟩
    rw [Sequencer.tickN, ht.1, ih.1]
    omega

/-- C2 (amended): with bpm 120 and sample rate 44100 the step interval is
`round(5512.5) = 5513` samples (not 5512: Rust's `f32::round` rounds the exact
half-way value away from zero); while playing from a step-aligned start,
the `n`-th tick call emits a step-boundary event exactly when `n % 5513 = 0`
— one event per 5513 consecutive ticks, at the interval start — and a stopped
sequencer emits no event and is left unchanged by `tick`. -/
theorem claim_C2_step_timing (s : Sequencer) (hp : s.playing = true)
    (hsr : s.sample_rate = 44100) (hc : s.sample_counter = 0)
    (_hns : s.num_steps = 16) :
    s.samples_per_step 120 = 5513
    ∧ (∀ n, (((s.tickN 120 n).tick 120).1.isSome = true ↔ n % 5513 = 0))
    ∧ (∀ (t : Sequencer) (bpm : ℚ), t.playing = false → t.tick bpm = (none, t)) := by
  refine ⟨samples_per_step_44100_120 s hsr, ?_, fun t bpm ht => tick_stopped t bpm ht⟩
  intro n
  have ih := tickN_invariant_44100_120 s hp hsr hc n
  have hlt : (s.tickN 120 n).sample_counter < 5513 := by
    rw [ih.1]; exact Nat.mod_lt _ (by norm_num)
  have ht := tick_playing_44100_120 (s.tickN 120 n) ih.2.1 ih.2.2 hlt
  rw [ht.2.2.2, ih.1]

/-- C2 counterexample: the claim's value 5512 for the step interval is wrong on
the code; the rounding of the exact half-way quotient 5512.5 yields 5513. -/
theorem claim_C2_counterexample :
    (Sequencer.new 44100).samples_per_step 120 = 5513
    ∧ (Sequencer.new 44100).samples_per_step 120 ≠ 5512 := by
  have h := samples_per_step_44100_120 (Sequencer.new 44100) rfl
  exact ⟨h, by rw [h]; norm_num⟩

/-- C2 witness: the amended timing statement at a concrete playing sequencer. -/
theorem claim_C2_witness :
    ({ Sequencer.new 44100 with playing := true } : Sequencer).samples_per_step 120 = 5513
    ∧ (∀ n, ((({ Sequencer.new 44100 with playing := true } : Sequencer).tickN 120 n).tick
          120).1.isSome = true ↔ n % 5513 = 0)
    ∧ (∀ (t : Sequencer) (bpm : ℚ), t.playing = false → t.tick bpm = (none, t)) :=
  claim_C2_step_timing { Sequencer.new 44100 with playing := true } rfl rfl rfl rfl

/-- The source's fold with a `(best, best_dist)` accumulator agrees with the
plain strict-minimum fold once the accumulator carries a candidate. -/
theorem foldl_quantStep_from (l : List ℤ) :
    ∀ b : ℤ, l.foldl quantStep (b, |b|)
      = (l.foldl (fun best c => if |c| < |best| then c else best) b,
         |l.foldl (fun best c => if |c| < |best| then c else best) b|) := by
  induction l with
  | nil => intro b; rfl
  | cons c t ih =>
    intro b
    simp only [List.foldl_cons, quantStep]
    by_cases h : |c| < |b|
    · rw [if_pos h, if_pos h]
      exact ih c
    · rw [if_neg h, if_neg h]
      exact ih b

/-- From the sentinel start `(0, i32::MAX)`, the first candidate (when small
enough) always replaces the sentinel, so the source fold computes the
first-wins strict minimum of the candidate list. -/
theorem foldl_quantStep_sentinel (c : ℤ) (cs : List ℤ) (h : |c| < 2147483647) :
    ((c :: cs).foldl quantStep (0, 2147483647)).1 = specWinningOffset (c :: cs) := by
  simp only [List.foldl_cons, specWinningOffset]
  have h1 : quantStep (0, 2147483647) c = (c, |c|) := by
    simp only [quantStep]
    rw [if_pos h]
  rw [h1, foldl_quantStep_from]

/-- Every non-Off candidate list starts with the offset `0 - rel` coming from
the scale's first interval, which is `0` in every interval table. -/
theorem quantCandidates_head (sc : Scale) (rel : ℤ) (hne : sc ≠ Scale.Off) :
    ∃ cs, quantCandidates rel sc.intervals = (0 - rel) :: cs := by
  cases sc
  · exact absurd rfl hne
  all_goals exact ⟨_, rfl⟩

/-- For in-range relative pitches the source fold equals the spec's first-wins
strict minimum of the candidate list. -/
theorem bestOffset_eq_spec (sc : Scale) (rel : ℤ) (h0 : 0 ≤ rel) (h12 : rel < 12)
    (hne : sc ≠ Scale.Off) :
    bestOffset sc rel = specWinningOffset (quantCandidates rel sc.intervals) := by
  obtain ⟨cs, hcs⟩ := quantCandidates_head sc rel hne
  have hb : |(0 : ℤ) - rel| < 2147483647 := by
    rw [zero_sub, abs_neg, abs_of_nonneg h0]
    omega
  rw [bestOffset, hcs, foldl_quantStep_sentinel _ _ hb]

/-- Embedding of `quantize` on a non-Off scale, restated through `bestOffset`. -/
theorem quantize_eq_bestOffset (q : ScaleQuantizer) (note : ℕ) (h : q.scale ≠ Scale.Off) :
    q.quantize note
      = (max 0 (min 127 ((note : ℤ)
          + bestOffset q.scale (((note : ℤ) - (q.root : ℤ)) % 12)))).toNat := by
  rw [ScaleQuantizer.quantize, if_neg h]
  rfl

/-- Finite facts about the winning offset, checked over all 12 relative
pitches of each scale: the offset is within one semitone, it lands on a scale
interval modulo 12, and relative pitches already on a scale interval get
offset zero. -/
theorem bestOffset_facts (sc : Scale) (hsc : sc ≠ Scale.Off) :
    ∀ r : ℕ, r < 12 →
      (-1 ≤ bestOffset sc (r : ℤ) ∧ bestOffset sc (r : ℤ) ≤ 1)
      ∧ (((r : ℤ) + bestOffset sc (r : ℤ)) % 12 ∈ sc.intervals)
      ∧ (((r : ℤ) ∈ sc.intervals) → bestOffset sc (r : ℤ) = 0) := by
  cases sc
  · exact absurd rfl hsc
  all_goals decide

/-- C4: quantize with scale Off is the identity; on any other scale it adds to
the pitch the first-wins strict-minimum candidate offset of §4.5 and clamps to
the MIDI range; for Major with root 0 it fixes 60 and sends the equidistant
pitch 61 down to 60 (the earlier scale degree). -/
theorem claim_C4_quantize_algorithm :
    (∀ (root : ℕ) (note : ℕ), (ScaleQuantizer.mk Scale.Off root).quantize note = note)
    ∧ (∀ (q : ScaleQuantizer) (note : ℕ), q.scale ≠ Scale.Off →
        q.quantize note
          = (max 0 (min 127 ((note : ℤ)
              + specWinningOffset (quantCandidates (((note : ℤ) - (q.root : ℤ)) % 12)
                  q.scale.intervals)))).toNat)
    ∧ (ScaleQuantizer.mk Scale.Major 0).quantize 60 = 60
    ∧ (ScaleQuantizer.mk Scale.Major 0).quantize 61 = 60 := by
  refine ⟨fun root note => by rw [ScaleQuantizer.quantize, if_pos rfl], ?_, by decide, by decide⟩
  intro q note h
  have h0 : (0 : ℤ) ≤ ((note : ℤ) - (q.root : ℤ)) % 12 :=
    Int.emod_nonneg _ (by norm_num)
  have h12 : ((note : ℤ) - (q.root : ℤ)) % 12 < 12 :=
    Int.emod_lt_of_pos _ (by norm_num)
  rw [quantize_eq_bestOffset q note h, bestOffset_eq_spec q.scale _ h0 h12 h]

/-- C4 witness: the Off identity, the non-Off algorithm at Major root 0 on
pitch 61, and both concrete Major values. -/
theorem claim_C4_witness :
    (ScaleQuantizer.mk Scale.Off 3).quantize 61 = 61
    ∧ (ScaleQuantizer.mk Scale.Major 0).quantize 61
        = (max 0 (min 127 ((61 : ℤ)
            + specWinningOffset (quantCandidates (((61 : ℤ) - ((0 : ℕ) : ℤ)) % 12)
                Scale.Major.intervals)))).toNat
    ∧ (ScaleQuantizer.mk Scale.Major 0).quantize 61 = 60 :=
  ⟨claim_C4_quantize_algorithm.1 3 61,
   claim_C4_quantize_algorithm.2.1 (ScaleQuantizer.mk Scale.Major 0) 61 (by decide),
   claim_C4_quantize_algorithm.2.2.2⟩

/-- The three finite `bestOffset` facts, transported from the `ℕ` enumeration
to an arbitrary in-range integer relative pitch. -/
theorem bestOffset_facts_int (sc : Scale) (hsc : sc ≠ Scale.Off) (rel : ℤ)
    (h0 : 0 ≤ rel) (h12 : rel < 12) :
    (-1 ≤ bestOffset sc rel ∧ bestOffset sc rel ≤ 1)
    ∧ ((rel + bestOffset sc rel) % 12 ∈ sc.intervals)
    ∧ ((rel ∈ sc.intervals) → bestOffset sc rel = 0) := by
  have hcast : ((rel.toNat : ℕ) : ℤ) = rel := Int.toNat_of_nonneg h0
  have h := bestOffset_facts sc hsc rel.toNat (by omega)
  rw [hcast] at h
  exact h

/-- C10: `quantize` is idempotent for every scale, every root pitch class and
every MIDI pitch, including the clamped boundary cases. -/
theorem claim_C10_quantize_idempotent (q : ScaleQuantizer) (note : ℕ)
    (_hroot : q.root < 12) (hnote : note < 128) :
    q.quantize (q.quantize note) = q.quantize note := by
  by_cases hsc : q.scale = Scale.Off
  · simp [ScaleQuantizer.quantize, hsc]
  · have hrel0 : (0 : ℤ) ≤ ((note : ℤ) - (q.root : ℤ)) % 12 :=
      Int.emod_nonneg _ (by norm_num)
    have hrel12 : ((note : ℤ) - (q.root : ℤ)) % 12 < 12 :=
      Int.emod_lt_of_pos _ (by norm_num)
    obtain ⟨⟨hoff1, hoff2⟩, htarget, _⟩ :=
      bestOffset_facts_int q.scale hsc _ hrel0 hrel12
    have hq := quantize_eq_bestOffset q note hsc
    by_cases hlow :
        (note : ℤ) + bestOffset q.scale (((note : ℤ) - (q.root : ℤ)) % 12) < 0
    · -- clamp to 0 is only hit at pitch 0 with offset −1, a fixed point
      have hname : q.quantize note = note := by
        rw [hq]
        omega
      rw [hname]
      exact hname
    · by_cases hhigh :
          (127 : ℤ) < (note : ℤ) + bestOffset q.scale (((note : ℤ) - (q.root : ℤ)) % 12)
      · -- clamp to 127 is only hit at pitch 127 with offset +1, a fixed point
        have hname : q.quantize note = note := by
          rw [hq]
          omega
        rw [hname]
        exact hname
      · -- unclamped: the result lies on a scale interval, whose offset is 0
        have hm : ((q.quantize note : ℤ))
            = (note : ℤ) + bestOffset q.scale (((note : ℤ) - (q.root : ℤ)) % 12) := by
          rw [hq]
          omega
        have hrel' : ((q.quantize note : ℤ) - (q.root : ℤ)) % 12
            = (((note : ℤ) - (q.root : ℤ)) % 12
                + bestOffset q.scale (((note : ℤ) - (q.root : ℤ)) % 12)) % 12 := by
          rw [hm, Int.emod_add_emod]
          omega
        obtain ⟨_, _, hfix⟩ := bestOffset_facts_int q.scale hsc
            (((q.quantize note : ℤ) - (q.root : ℤ)) % 12)
            (Int.emod_nonneg _ (by norm_num)) (Int.emod_lt_of_pos _ (by norm_num))
        have hoff' :
            bestOffset q.scale (((q.quantize note : ℤ) - (q.root : ℤ)) % 12) = 0 := by
          apply hfix
          rw [hrel']
          exact htarget
        rw [quantize_eq_bestOffset q (q.quantize note) hsc, hoff', add_zero]
        omega

/-- C10 witness: idempotency at a concrete scale, root and pitch. -/
theorem claim_C10_witness :
    (ScaleQuantizer.mk Scale.Major 0).quantize ((ScaleQuantizer.mk Scale.Major 0).quantize 61)
      = (ScaleQuantizer.mk Scale.Major 0).quantize 61 :=
  claim_C10_quantize_idempotent (ScaleQuantizer.mk Scale.Major 0) 61 (by norm_num) (by norm_num)

/-- The hyperbolic tangent is strictly inside the unit interval. -/
theorem abs_tanh_lt_one (x : ℝ) : |Real.tanh x| < 1 := by
  have hc := Real.cosh_pos x
  rw [Real.tanh_eq_sinh_div_cosh, abs_div, abs_of_pos hc, div_lt_one hc]
  rcases abs_cases (Real.sinh x) with ⟨h, _⟩ | ⟨h, _⟩
  · rw [h]
    exact Real.sinh_lt_cosh x
  · rw [h]
    have := Real.sinh_lt_cosh (-x)
    rw [Real.sinh_neg, Real.cosh_neg] at this
    linarith

/-- C1: every sample returned by `Synth::generate_sample` is the soft-clipped
sum `tanh(melodic_out + drum_out)` — where `melodic_out` is the effect-chain
output of the scaled melodic voice sum and `drum_out` is the drum machine's
output scaled by master volume — and so has absolute value strictly below 1,
for every synth state and every drum-machine output. -/
theorem claim_C1_soft_clip (s : Synth) (drum_raw : ℝ) :
    (s.generate_sample drum_raw).1
      = Real.tanh (s.melOut + drumOutputModel drum_raw * s.volume)
    ∧ |(s.generate_sample drum_raw).1| < 1 :=
  ⟨rfl, abs_tanh_lt_one _⟩

/-- Inserting a voice makes it the entry found for its pitch. -/
theorem lookup_insertVoice_self (p : ℕ) (v : Voice) (l : List (ℕ × Voice)) :
    lookupVoice p (insertVoice p v l) = some v := by
  induction l with
  | nil => simp [insertVoice, lookupVoice]
  | cons e t ih =>
    by_cases h : e.1 = p
    · simp [insertVoice, lookupVoice, h]
    · simp [insertVoice, lookupVoice, h, ih]

/-- Keys after insertion are the old keys plus (at most) the inserted pitch. -/
theorem mem_keys_insertVoice (q p : ℕ) (v : Voice) (l : List (ℕ × Voice)) :
    q ∈ (insertVoice p v l).map Prod.fst ↔ q ∈ l.map Prod.fst ∨ q = p := by
  induction l with
  | nil => simp [insertVoice]
  | cons e t ih =>
    by_cases h : e.1 = p
    · simp [insertVoice, h]
      tauto
    · simp [insertVoice, h, ih]
      tauto

/-- Replace-on-insert preserves the one-entry-per-pitch invariant. -/
theorem nodup_insertVoice (p : ℕ) (v : Voice) (l : List (ℕ × Voice))
    (h : voicesKeysNodup l) : voicesKeysNodup (insertVoice p v l) := by
  induction l with
  | nil => simp [insertVoice, voicesKeysNodup]
  | cons e t ih =>
    rw [voicesKeysNodup, List.map_cons, List.nodup_cons] at h
    by_cases he : e.1 = p
    · rw [voicesKeysNodup, insertVoice]
      simp only [if_pos he, List.map_cons, List.nodup_cons]
      exact ⟨he ▸ h.1, h.2⟩
    · rw [voicesKeysNodup, insertVoice]
      simp only [if_neg he, List.map_cons, List.nodup_cons]
      refine ⟨?_, ih h.2⟩
      rw [mem_keys_insertVoice]
      rintro (hmem | hmem)
      · exact h.1 hmem
      · exact he hmem

/-- Releasing a pitch does not change the key list. -/
theorem keys_releaseAt (p : ℕ) (l : List (ℕ × Voice)) :
    (releaseAt p l).map Prod.fst = l.map Prod.fst := by
  induction l with
  | nil => rfl
  | cons e t ih =>
    by_cases h : e.1 = p
    · simp [releaseAt, h] at ih ⊢
      exact ih
    · simp [releaseAt, h] at ih ⊢
      exact ih

/-- Releasing a pitch preserves the one-entry-per-pitch invariant. -/
theorem nodup_releaseAt (p : ℕ) (l : List (ℕ × Voice))
    (h : voicesKeysNodup l) : voicesKeysNodup (releaseAt p l) := by
  rw [voicesKeysNodup, keys_releaseAt]
  exact h

/-- A value-only map does not change the key list. -/
theorem keys_map_value (f : Voice → Voice) (l : List (ℕ × Voice)) :
    (l.map (fun e => (e.1, f e.2))).map Prod.fst = l.map Prod.fst := by
  induction l with
  | nil => rfl
  | cons e t ih => simp [ih]

/-- Filtering voices preserves the one-entry-per-pitch invariant. -/
theorem nodup_filter_voices (pred : ℕ × Voice → Bool) (l : List (ℕ × Voice))
    (h : voicesKeysNodup l) : voicesKeysNodup (l.filter pred) := by
  exact List.Nodup.sublist (List.Sublist.map Prod.fst (List.filter_sublist l)) h

/-- Applying a sequencer step event preserves the invariant. -/
theorem nodup_applyEvent (ev : Option StepEvent) (l : List (ℕ × Voice))
    (h : voicesKeysNodup l) : voicesKeysNodup (applyEvent ev l) := by
  match ev with
  | none => exact h
  | some e =>
    rw [applyEvent]
    have h1 : voicesKeysNodup (match e.note_off with
        | none => l
        | some n => releaseAt n l) := by
      match e.note_off with
      | none => exact h
      | some n => exact nodup_releaseAt n l h
    match e.note_on with
    | none => exact h1
    | some n => exact nodup_insertVoice n (Voice.new n) _ h1

/-- The voice map coming out of one `generate_sample` call keeps the invariant. -/
theorem nodup_generate_sample (s : Synth) (drum_raw : ℝ)
    (h : voicesKeysNodup s.voices) :
    voicesKeysNodup ((s.generate_sample drum_raw).2.voices) := by
  have h1 : voicesKeysNodup s.voicesAfterEvent :=
    nodup_applyEvent _ _ h
  have h2 : voicesKeysNodup (s.advanced.map (fun e => (e.1, e.2.2))) := by
    rw [voicesKeysNodup, Synth.advanced, List.map_map, List.map_map]
    have : voicesKeysNodup s.voicesAfterEvent := h1
    rw [voicesKeysNodup] at this
    convert this using 2
  exact nodup_filter_voices _ _ h2

/-- C5: a fresh note-on voice replaces any voice for the same pitch (one voice
per pitch), starts in Attack at level 0, and the one-entry-per-pitch invariant
is preserved by `note_on`, `note_off` and the full `generate_sample` call
(including its sequencer-driven note-on). -/
theorem claim_C5_one_voice_per_pitch :
    (∀ (s : Synth) (p : ℕ),
        lookupVoice p (s.note_on p).voices = some (Voice.new p)
        ∧ (Voice.new p).stage = EnvelopeStage.Attack ∧ (Voice.new p).level = 0)
    ∧ (∀ (s : Synth) (p : ℕ), voicesKeysNodup s.voices →
        voicesKeysNodup (s.note_on p).voices)
    ∧ (∀ (s : Synth) (p : ℕ), voicesKeysNodup s.voices →
        voicesKeysNodup (s.note_off p).voices)
    ∧ (∀ (s : Synth) (drum_raw : ℝ), voicesKeysNodup s.voices →
        voicesKeysNodup ((s.generate_sample drum_raw).2.voices)) :=
  ⟨fun s p => ⟨lookup_insertVoice_self p (Voice.new p) s.voices, rfl, rfl⟩,
   fun s p h => nodup_insertVoice p (Voice.new p) s.voices h,
   fun s p h => nodup_releaseAt p s.voices h,
   fun s drum_raw h => nodup_generate_sample s drum_raw h⟩

/-- C5 witness: concrete replacement insert and invariant preservation. -/
theorem claim_C5_witness :
    lookupVoice 60 ((Synth.new 44100).note_on 60).voices = some (Voice.new 60)
    ∧ voicesKeysNodup ((Synth.new 44100).note_on 60).voices
    ∧ voicesKeysNodup ((Synth.new 44100).note_off 60).voices
    ∧ voicesKeysNodup (((Synth.new 44100).generate_sample 0).2.voices) :=
  ⟨(claim_C5_one_voice_per_pitch.1 (Synth.new 44100) 60).1,
   claim_C5_one_voice_per_pitch.2.1 (Synth.new 44100) 60
     (by simp [Synth.new, voicesKeysNodup]),
   claim_C5_one_voice_per_pitch.2.2.1 (Synth.new 44100) 60
     (by simp [Synth.new, voicesKeysNodup]),
   claim_C5_one_voice_per_pitch.2.2.2 (Synth.new 44100) 0
     (by simp [Synth.new, voicesKeysNodup])⟩

/-- A key-preserving, value-only entry map commutes with the lookup. -/
theorem lookup_map_entry (p : ℕ) (F : ℕ × Voice → ℕ × Voice) (g : Voice → Voice)
    (hF : ∀ k v, F (k, v) = (k, g v)) (l : List (ℕ × Voice)) :
    lookupVoice p (l.map F) = (lookupVoice p l).map g := by
  induction l with
  | nil => rfl
  | cons e t ih =>
    obtain ⟨k, v⟩ := e
    rw [List.map_cons, hF]
    by_cases h : k = p
    · simp [lookupVoice, h]
    · simp [lookupVoice, h, ih]

/-- A key-preserving, value-only entry map keeps the key list. -/
theorem keys_map_entry (F : ℕ × Voice → ℕ × Voice) (g : Voice → Voice)
    (hF : ∀ k v, F (k, v) = (k, g v)) (l : List (ℕ × Voice)) :
    (l.map F).map Prod.fst = l.map Prod.fst := by
  induction l with
  | nil => rfl
  | cons e t ih =>
    obtain ⟨k, v⟩ := e
    rw [List.map_cons, hF]
    simp [ih]

/-- The lookup misses exactly when the pitch is not among the keys. -/
theorem lookup_eq_none_iff (p : ℕ) (l : List (ℕ × Voice)) :
    lookupVoice p l = none ↔ p ∉ l.map Prod.fst := by
  induction l with
  | nil => simp [lookupVoice]
  | cons e t ih =>
    by_cases h : e.1 = p
    · simp [lookupVoice, h]
    · simp [lookupVoice, h, ih]
      tauto

/-- Under the one-entry-per-pitch invariant, looking up in a filtered voice
map is filtering the looked-up voice. -/
theorem lookup_filter (p : ℕ) (pred : ℕ × Voice → Bool) (l : List (ℕ × Voice))
    (h : voicesKeysNodup l) :
    lookupVoice p (l.filter pred)
      = (lookupVoice p l).bind (fun v => if pred (p, v) then some v else none) := by
  induction l with
  | nil => rfl
  | cons e t ih =>
    rw [voicesKeysNodup, List.map_cons, List.nodup_cons] at h
    by_cases he : e.1 = p
    · subst he
      by_cases hp : pred e = true
      · rw [List.filter_cons_of_pos hp]
        simp [lookupVoice, hp]
      · rw [List.filter_cons_of_neg (by simp [hp])]
        have hnone : lookupVoice e.1 (t.filter pred) = none := by
          rw [lookup_eq_none_iff]
          intro hmem
          exact h.1 (((List.filter_sublist t).map Prod.fst).subset hmem)
        rw [hnone]
        simp [lookupVoice, hp]
    · by_cases hp : pred e = true
      · rw [List.filter_cons_of_pos hp]
        simp only [lookupVoice, if_neg he]
        exact ih h.2
      · rw [List.filter_cons_of_neg (by simp [hp])]
        simp only [lookupVoice, if_neg he]
        exact ih h.2

/-- With a stopped sequencer, one `generate_sample` call advances every voice
by one sample and drops the finished ones; the sequencer is untouched. -/
theorem generate_stopped_voices (s : Synth) (drum_raw : ℝ)
    (h : s.sequencer.playing = false) :
    (s.generate_sample drum_raw).2.voices
      = (s.voices.map (fun e =>
          (e.1, (e.2.next_sample s.sample_rate s.wave_type s.attack s.decay
                  s.sustain s.release).2))).filter (fun e => !e.2.is_finished)
    ∧ (s.generate_sample drum_raw).2.sequencer = s.sequencer := by
  have htick : s.sequencer.tick s.bpm = (none, s.sequencer) := tick_stopped _ _ h
  constructor
  · show s.retainedVoices = _
    rw [Synth.retainedVoices, Synth.advanced, Synth.voicesAfterEvent, htick]
    rw [show applyEvent none s.voices = s.voices from rfl, List.map_map]
    rfl
  · show (s.sequencer.tick s.bpm).2 = s.sequencer
    rw [htick]

/-- With a stopped sequencer and the invariant, the voice found for a pitch
after one call is the advanced old voice, kept only while unfinished. -/
theorem generate_stopped_lookup (s : Synth) (drum_raw : ℝ) (p : ℕ)
    (h : s.sequencer.playing = false) (hnd : voicesKeysNodup s.voices) :
    lookupVoice p ((s.generate_sample drum_raw).2.voices)
      = (lookupVoice p s.voices).bind (fun v =>
          let v1 := (v.next_sample s.sample_rate s.wave_type s.attack s.decay
                      s.sustain s.release).2
          if !v1.is_finished then some v1 else none) := by
  rw [(generate_stopped_voices s drum_raw h).1]
  have hmnd : voicesKeysNodup (s.voices.map (fun e =>
      (e.1, (e.2.next_sample s.sample_rate s.wave_type s.attack s.decay
              s.sustain s.release).2))) := by
    rw [voicesKeysNodup,
        keys_map_entry
          (fun e => (e.1, (e.2.next_sample s.sample_rate s.wave_type s.attack
            s.decay s.sustain s.release).2))
          (fun v => (v.next_sample s.sample_rate s.wave_type s.attack
            s.decay s.sustain s.release).2)
          (fun k v => rfl) s.voices]
    exact hnd
  rw [lookup_filter _ _ _ hmnd,
      lookup_map_entry p
        (fun e => (e.1, (e.2.next_sample s.sample_rate s.wave_type s.attack
          s.decay s.sustain s.release).2))
        (fun v => (v.next_sample s.sample_rate s.wave_type s.attack
          s.decay s.sustain s.release).2)
        (fun k v => rfl) s.voices]
  cases lookupVoice p s.voices with
  | none => rfl
  | some v => rfl

/-- One sample of a voice in `Release`: the level drops by
`dt * release_level / release` and is clamped at 0 (moving the stage to `Off`
in that case); `release_level` itself is not touched. -/
theorem next_sample_release (v : Voice) (sr : ℝ) (wave : WaveType)
    (attack decay sustain release : ℝ) (hst : v.stage = EnvelopeStage.Release) :
    ((v.next_sample sr wave attack decay sustain release).2.level
        = (if v.level - 1 / sr * v.release_level / release ≤ 0 then 0
           else v.level - 1 / sr * v.release_level / release))
    ∧ ((v.next_sample sr wave attack decay sustain release).2.stage
        = (if v.level - 1 / sr * v.release_level / release ≤ 0 then EnvelopeStage.Off
           else EnvelopeStage.Release))
    ∧ (v.next_sample sr wave attack decay sustain release).2.release_level
        = v.release_level := by
  rw [Voice.next_sample, if_neg (by rw [hst]; decide)]
  simp only [hst]
  by_cases hle : v.level - 1 / sr * v.release_level / release ≤ 0
  · simp only [if_pos hle]
    exact ⟨by trivial, by trivial, by trivial⟩
  · simp only [if_neg hle]
    exact ⟨by trivial, by trivial, by trivial⟩

/-- A voice in `Release` or `Off` is reported finished exactly in `Off`. -/
theorem is_finished_iff (v : Voice) :
    v.is_finished = true ↔ v.stage = EnvelopeStage.Off := by
  rw [Voice.is_finished]
  cases v.stage <;> simp

/-- With a stopped sequencer, iterated `generate_sample` calls keep the
sequencer and every scalar parameter, and preserve the voice-map invariant. -/
theorem iterate_stopped_fields (s : Synth) (drs : ℕ → ℝ)
    (h : s.sequencer.playing = false) (hnd : voicesKeysNodup s.voices) :
    ∀ n, (s.iterate drs n).sequencer = s.sequencer
      ∧ (s.iterate drs n).sample_rate = s.sample_rate
      ∧ (s.iterate drs n).wave_type = s.wave_type
      ∧ (s.iterate drs n).attack = s.attack
      ∧ (s.iterate drs n).decay = s.decay
      ∧ (s.iterate drs n).sustain = s.sustain
      ∧ (s.iterate drs n).release = s.release
      ∧ voicesKeysNodup (s.iterate drs n).voices := by
  intro n
  induction n with
  | zero => exact ⟨rfl, rfl, rfl, rfl, rfl, rfl, rfl, hnd⟩
  | succ k ih =>
    have hstop : (s.iterate drs k).sequencer.playing = false := by
      rw [ih.1]; exact h
    refine ⟨?_, ih.2.1, ih.2.2.1, ih.2.2.2.1, ih.2.2.2.2.1, ih.2.2.2.2.2.1,
      ih.2.2.2.2.2.2.1, ?_⟩
    · show ((s.iterate drs k).generate_sample (drs k)).2.sequencer = s.sequencer
      rw [(generate_stopped_voices _ _ hstop).2, ih.1]
    · exact nodup_generate_sample _ _ ih.2.2.2.2.2.2.2

/-- C3: after a voice for pitch `p` has entered Release with its level captured
as `release_level` (as `note_on` then `note_off` leaves it), draining samples
with the transport stopped makes that voice's level non-increasing from call
to call, the level reaches exactly 0 (with the stage moving to `Off`) on some
call, and from that call on the voice is absent from the active voice map. -/
theorem claim_C3_release_drains (s : Synth) (p : ℕ) (v : Voice) (drs : ℕ → ℝ)
    (hnd : voicesKeysNodup s.voices)
    (hstopped : s.sequencer.playing = false)
    (hv : lookupVoice p s.voices = some v)
    (hstage : v.stage = EnvelopeStage.Release)
    (hrel : v.release_level = v.level)
    (hlevel : 0 ≤ v.level)
    (hsr : 0 < s.sample_rate)
    (_hattack : 0 < s.attack) (_hdecay : 0 < s.decay)
    (_hsustain0 : 0 ≤ s.sustain) (_hsustain1 : s.sustain ≤ 1)
    (hrelease : 0 < s.release) :
    (∀ n v1 v2, lookupVoice p (s.iterate drs n).voices = some v1 →
        lookupVoice p (s.iterate drs (n+1)).voices = some v2 →
        v2.level ≤ v1.level)
    ∧ (∃ N vN, lookupVoice p (s.iterate drs N).voices = some vN
        ∧ (vN.next_sample s.sample_rate s.wave_type s.attack s.decay s.sustain
            s.release).2.level = 0
        ∧ (vN.next_sample s.sample_rate s.wave_type s.attack s.decay s.sustain
            s.release).2.stage = EnvelopeStage.Off
        ∧ ∀ m, N < m → lookupVoice p (s.iterate drs m).voices = none) := by
  classical
  set δ : ℝ := 1 / s.sample_rate * v.release_level / s.release with hδdef
  have hδ0 : 0 ≤ δ := by
    apply div_nonneg
    · apply mul_nonneg
      · positivity
      · rw [hrel]; exact hlevel
    · exact le_of_lt hrelease
  -- the tracked release trajectory, as long as it stays strictly positive
  have pres : ∀ n, (∀ k, k < n → 0 < v.level - (k + 1 : ℕ) * δ) →
      ∃ w, lookupVoice p (s.iterate drs n).voices = some w
        ∧ w.stage = EnvelopeStage.Release
        ∧ w.release_level = v.release_level
        ∧ w.level = v.level - (n : ℕ) * δ := by
    intro n
    induction n with
    | zero =>
      intro _
      exact ⟨v, hv, hstage, rfl, by simp⟩
    | succ k ih =>
      intro hsurv
      obtain ⟨w, hw, hwst, hwrl, hwlv⟩ := ih (fun j hj => hsurv j (by omega))
      have hf := iterate_stopped_fields s drs hstopped hnd k
      have hlk := generate_stopped_lookup (s.iterate drs k) (drs k) p
        (by rw [hf.1]; exact hstopped) hf.2.2.2.2.2.2.2
      rw [hf.2.1, hf.2.2.1, hf.2.2.2.1, hf.2.2.2.2.1, hf.2.2.2.2.2.1,
        hf.2.2.2.2.2.2.1] at hlk
      have hnr := next_sample_release w s.sample_rate s.wave_type s.attack
        s.decay s.sustain s.release hwst
      have hpos : ¬ (w.level - 1 / s.sample_rate * w.release_level / s.release ≤ 0) := by
        rw [hwlv, hwrl, ← hδdef]
        have := hsurv k (by omega)
        push_neg
        have hsucc : ((k + 1 : ℕ) : ℝ) = (k : ℝ) + 1 := by push_cast; ring
        rw [hsucc] at this
        nlinarith [this]
      refine ⟨(w.next_sample s.sample_rate s.wave_type s.attack s.decay
          s.sustain s.release).2, ?_, ?_, ?_, ?_⟩
      · show lookupVoice p (s.iterate drs (k+1)).voices = _
        rw [show s.iterate drs (k+1)
              = ((s.iterate drs k).generate_sample (drs k)).2 from rfl, hlk, hw]
        have hnf : ((w.next_sample s.sample_rate s.wave_type s.attack s.decay
            s.sustain s.release).2.is_finished) = false := by
          rw [Bool.eq_false_iff]
          intro hfin
          rw [is_finished_iff] at hfin
          rw [hnr.2.1, if_neg hpos] at hfin
          exact absurd hfin (by decide)
        simp [hnf]
      · rw [hnr.2.1, if_neg hpos]
      · rw [hnr.2.2, hwrl]
      · rw [hnr.1, if_neg hpos, hwlv, hwrl, ← hδdef]
        push_cast
        ring
  -- once gone, gone forever
  have absent : ∀ n m, n ≤ m → lookupVoice p (s.iterate drs n).voices = none →
      lookupVoice p (s.iterate drs m).voices = none := by
    intro n m hnm hn
    induction m with
    | zero =>
      have : n = 0 := by omega
      rw [← this]; exact hn
    | succ k ih =>
      rcases Nat.lt_or_ge n (k+1) with hlt | hge
      · have hk := ih (by omega)
        have hf := iterate_stopped_fields s drs hstopped hnd k
        have hlk := generate_stopped_lookup (s.iterate drs k) (drs k) p
          (by rw [hf.1]; exact hstopped) hf.2.2.2.2.2.2.2
        rw [show s.iterate drs (k+1)
              = ((s.iterate drs k).generate_sample (drs k)).2 from rfl, hlk, hk]
        rfl
      · have : n = k + 1 := by omega
        rw [← this]; exact hn
  -- the terminating step exists
  have hterm : ∃ n : ℕ, v.level - (n + 1 : ℕ) * δ ≤ 0 := by
    rcases eq_or_lt_of_le hlevel with hz | hpos
    · exact ⟨0, by
        have : v.release_level = 0 := by rw [hrel, ← hz]
        have hδz : δ = 0 := by rw [hδdef, this]; ring
        rw [hδz, ← hz]
        simp⟩
    · have hδpos : 0 < δ := by
        rw [hδdef, hrel]
        positivity
      obtain ⟨n, hn⟩ := exists_nat_gt (v.level / δ)
      refine ⟨n, ?_⟩
      have h1 : v.level < n * δ := by
        rw [div_lt_iff₀ hδpos] at hn
        linarith
      have h2 : ((n + 1 : ℕ) : ℝ) * δ = (n : ℝ) * δ + δ := by push_cast; ring
      rw [h2]
      nlinarith
  -- N: the first call whose advance clamps the level to 0
  set N := Nat.find hterm with hNdef
  have hNspec : v.level - (N + 1 : ℕ) * δ ≤ 0 := Nat.find_spec hterm
  have hNmin : ∀ k, k < N → 0 < v.level - (k + 1 : ℕ) * δ := by
    intro k hk
    have := Nat.find_min hterm hk
    push_neg at this
    exact this
  obtain ⟨w, hw, hwst, hwrl, hwlv⟩ := pres N hNmin
  have hnr := next_sample_release w s.sample_rate s.wave_type s.attack
    s.decay s.sustain s.release hwst
  have hclamp : w.level - 1 / s.sample_rate * w.release_level / s.release ≤ 0 := by
    rw [hwlv, hwrl, ← hδdef]
    have hsucc : ((N + 1 : ℕ) : ℝ) * δ = (N : ℝ) * δ + δ := by push_cast; ring
    rw [hsucc] at hNspec
    nlinarith [hNspec]
  have hlvl0 : (w.next_sample s.sample_rate s.wave_type s.attack s.decay
      s.sustain s.release).2.level = 0 := by
    rw [hnr.1, if_pos hclamp]
  have hstOff : (w.next_sample s.sample_rate s.wave_type s.attack s.decay
      s.sustain s.release).2.stage = EnvelopeStage.Off := by
    rw [hnr.2.1, if_pos hclamp]
  have hgone : lookupVoice p (s.iterate drs (N+1)).voices = none := by
    have hf := iterate_stopped_fields s drs hstopped hnd N
    have hlk := generate_stopped_lookup (s.iterate drs N) (drs N) p
      (by rw [hf.1]; exact hstopped) hf.2.2.2.2.2.2.2
    rw [hf.2.1, hf.2.2.1, hf.2.2.2.1, hf.2.2.2.2.1, hf.2.2.2.2.2.1,
      hf.2.2.2.2.2.2.1] at hlk
    rw [show s.iterate drs (N+1)
          = ((s.iterate drs N).generate_sample (drs N)).2 from rfl, hlk, hw]
    have hfin : ((w.next_sample s.sample_rate s.wave_type s.attack s.decay
        s.sustain s.release).2.is_finished) = true := by
      rw [is_finished_iff]
      exact hstOff
    simp [hfin]
  constructor
  · -- non-increasing level between consecutive present states
    intro n v1 v2 h1 h2
    rcases Nat.lt_or_ge n (N + 1) with hn | hn
    · have hn' : n ≤ N := by omega
      obtain ⟨w1, hw1, hw1st, hw1rl, hw1lv⟩ := pres n
        (fun k hk => hNmin k (by omega))
      have hveq : v1 = w1 := by
        rw [hw1] at h1
        injection h1 with h
        exact h.symm
      subst hveq
      have hf := iterate_stopped_fields s drs hstopped hnd n
      have hlk := generate_stopped_lookup (s.iterate drs n) (drs n) p
        (by rw [hf.1]; exact hstopped) hf.2.2.2.2.2.2.2
      rw [hf.2.1, hf.2.2.1, hf.2.2.2.1, hf.2.2.2.2.1, hf.2.2.2.2.2.1,
        hf.2.2.2.2.2.2.1] at hlk
      rw [show s.iterate drs (n+1)
            = ((s.iterate drs n).generate_sample (drs n)).2 from rfl, hlk, hw1] at h2
      have hnr1 := next_sample_release v1 s.sample_rate s.wave_type s.attack
        s.decay s.sustain s.release hw1st
      by_cases hc : v1.level - 1 / s.sample_rate * v1.release_level / s.release ≤ 0
      · exfalso
        have hfin : ((v1.next_sample s.sample_rate s.wave_type s.attack s.decay
            s.sustain s.release).2.is_finished) = true := by
          rw [is_finished_iff, hnr1.2.1, if_pos hc]
        simp [hfin] at h2
      · have hnf : ((v1.next_sample s.sample_rate s.wave_type s.attack s.decay
            s.sustain s.release).2.is_finished) = false := by
          rw [Bool.eq_false_iff]
          intro hfin
          rw [is_finished_iff, hnr1.2.1, if_neg hc] at hfin
          exact absurd hfin (by decide)
        simp only [Option.some_bind] at h2
        rw [hnf] at h2
        simp only [Bool.not_false, if_true] at h2
        injection h2 with h2
        rw [← h2, hnr1.1, if_neg hc]
        have hd0 : 0 ≤ 1 / s.sample_rate * v1.release_level / s.release := by
          rw [hw1rl, hrel]
          apply div_nonneg
          · apply mul_nonneg
            · positivity
            · exact hlevel
          · exact le_of_lt hrelease
        linarith
    · exfalso
      have := absent (N+1) n hn hgone
      rw [this] at h1
      exact Option.noConfusion h1
  · exact ⟨N, w, hw, hlvl0, hstOff, fun m hm => absent (N+1) m (by omega) hgone⟩

/-- C3 witness: on the concrete release state the drain terminates — some call
clamps the level to exactly 0 and moves the stage to `Off`, after which the
pitch is gone from the voice map. -/
theorem claim_C3_witness :
    ∃ N vN, lookupVoice 60 (releaseState.iterate (fun _ => 0) N).voices = some vN
      ∧ (vN.next_sample releaseState.sample_rate releaseState.wave_type
          releaseState.attack releaseState.decay releaseState.sustain
          releaseState.release).2.level = 0
      ∧ (vN.next_sample releaseState.sample_rate releaseState.wave_type
          releaseState.attack releaseState.decay releaseState.sustain
          releaseState.release).2.stage = EnvelopeStage.Off
      ∧ ∀ m, N < m → lookupVoice 60 (releaseState.iterate (fun _ => 0) m).voices = none :=
  (claim_C3_release_drains releaseState 60
      { frequency := 0, phase := 0, stage := EnvelopeStage.Release,
        level := 1, release_level := 1 }
      (fun _ => 0)
      (by simp [releaseState, Synth.new, voicesKeysNodup])
      rfl rfl rfl rfl (by norm_num)
      (by norm_num [releaseState, Synth.new])
      (by norm_num [releaseState, Synth.new])
      (by norm_num [releaseState, Synth.new])
      (by norm_num [releaseState, Synth.new])
      (by norm_num [releaseState, Synth.new])
      (by norm_num [releaseState, Synth.new])).2

end TuiBeat

